import Mathlib

/-!
Verification of the ArenaAlloc arena allocator (`arenaalloc.h`, `arenaallocimpl.h`).

The C++ sources are shallowly embedded below.  All `std::size_t` arithmetic is
modelled as `Nat` with an explicit `% 2 ^ 64` wherever the C++ performs a
`size_t` operation that can wrap (the source itself notes that `roundSize`
"is subject to overflow").  Pointers returned by the allocator are modelled as
(block position in the chain, byte offset inside that block's buffer): buffers
obtained from the backing store are pairwise disjoint, so a pair of this shape
identifies a concrete address.  The backing store (`_newAllocatorImpl`,
`new char[n]` / `delete[]`) is modelled as total: every request is supplied.
-/

namespace ArenaAlloc

/-- The modulus of `std::size_t` on the LP64 platforms the source targets. -/
def W : Nat := 2 ^ 64

/-- `_memblock::roundSize`: `(( numBytes + sizeof(_roundsize) - 1 ) / sizeof(_roundsize)) * sizeof(_roundsize)`.
`sizeof(_roundsize)` is 8 on LP64 (`union { double d; void * p; }`).  The
addition `numBytes + 7` is `size_t` arithmetic and wraps modulo `2^64`; the
subsequent division and multiplication cannot wrap. -/
def roundSize (numBytes : Nat) : Nat :=
  ((numBytes + 7) % W) / 8 * 8

/-- `_memblock`: one buffer obtained from the backing store plus a bump cursor.
`m_next` is represented by the position of the block in the arena's chain
(see `Memblockimpl.blocks`); `m_buffer` is represented by the number of bytes
that were actually requested from the backing store for it, which fixes the
extent of the real allocation behind the block. -/
structure Memblock where
  /-- `m_bufferSize`: set to `roundSize(bufferSize)` by the constructor. -/
  bufferSize : Nat
  /-- `m_index`: index of next allocatable byte in the block. -/
  index : Nat
  /-- The argument passed to `allocImpl.allocate` for `m_buffer`, i.e. the
  number of bytes actually obtained from the backing store. -/
  requestedBytes : Nat
deriving DecidableEq

/-- The `_memblock` constructor: `m_bufferSize( roundSize( bufferSize ) )`,
`m_index( 0 )`, `m_buffer( allocImpl.allocate( bufferSize ) )` — note that the
capacity is the rounded size while the backing store request is the unrounded
argument. -/
def Memblock.create (bufferSize : Nat) : Memblock :=
  { bufferSize := roundSize bufferSize
    index := 0
    requestedBytes := bufferSize }

/-- `_memblock::allocate`: on failure return the null sentinel and leave the
block untouched; on success return `&m_buffer[m_index]` (modelled as the offset
`m_index`) and advance `m_index` by the rounded size.  Both the comparison
`roundedSize + m_index > m_bufferSize` and the update `m_index += roundedSize`
are `size_t` arithmetic. -/
def Memblock.allocate (numBytes : Nat) (b : Memblock) : Option Nat × Memblock :=
  if (roundSize numBytes + b.index) % W > b.bufferSize then
    (none, b)
  else
    (some b.index, { b with index := (b.index + roundSize numBytes) % W })

/-- A pointer returned by the arena: which block of the chain it lies in
(position from `m_head`) and the byte offset inside that block's buffer. -/
structure Ptr where
  block : Nat
  offset : Nat
deriving DecidableEq

/-- `_memblockimpl`: the shared, refcounted arena state.  The chain
`m_head … m_current` is represented as `front ++ [cur]`: `m_current` is always
the last block of the chain and is never null once the constructor has run
(the constructor immediately calls `allocateNewBlock`).  The statistics fields
are those of the extended variant (`arenaallocimpl.h`); the basic variant
(`arenaalloc.h`) has the same allocation logic without the statistics. -/
structure Memblockimpl where
  /-- `m_refCount`. -/
  refCount : Nat
  /-- `m_defaultSize`. -/
  defaultSize : Nat
  /-- `m_numAllocate` (extended variant). -/
  numAllocate : Nat
  /-- `m_numDeallocate` (extended variant). -/
  numDeallocate : Nat
  /-- `m_numBytesAllocated` (extended variant). -/
  numBytesAllocated : Nat
  /-- The blocks of the chain strictly before `m_current`, in chain order
  starting at `m_head`. -/
  front : List Memblock
  /-- `m_current`, the last block of the chain. -/
  cur : Memblock
deriving DecidableEq

/-- The whole chain from `m_head`, in order. -/
def Memblockimpl.blocks (s : Memblockimpl) : List Memblock :=
  s.front ++ [s.cur]

/-- Sum of the per-block offsets: the spec's "bytes-in-use" observation. -/
def Memblockimpl.bytesInUse (s : Memblockimpl) : Nat :=
  (s.blocks.map Memblock.index).sum

/-- The `_memblockimpl` constructor: clamps the default size to at least 256
and immediately creates the first block of the (clamped) default size via
`allocateNewBlock( m_defaultSize )`. -/
def Memblockimpl.create (defaultSize : Nat) : Memblockimpl :=
  let d := if defaultSize < 256 then 256 else defaultSize
  { refCount := 1
    defaultSize := d
    numAllocate := 0
    numDeallocate := 0
    numBytesAllocated := 0
    front := []
    cur := Memblock.create d }

/-- The size of the block requested on growth:
`numBytes > m_defaultSize / 2 ? numBytes * 2 : m_defaultSize`, where
`numBytes * 2` is `size_t` multiplication. -/
def Memblockimpl.newBlockSize (numBytes : Nat) (s : Memblockimpl) : Nat :=
  if numBytes > s.defaultSize / 2 then (numBytes * 2) % W else s.defaultSize

/-- The statistics updates performed at the end of `_memblockimpl::allocate`
in the extended variant: `++m_numAllocate; m_numBytesAllocated += numBytes`. -/
def Memblockimpl.bumpStats (numBytes : Nat) (s : Memblockimpl) : Memblockimpl :=
  { s with
    numAllocate := (s.numAllocate + 1) % W
    numBytesAllocated := (s.numBytesAllocated + numBytes) % W }

/-- `_memblockimpl::allocate`: try the current block; on failure call
`allocateNewBlock` with `newBlockSize` (which appends the freshly constructed
block as the new `m_current`) and retry on it.  `allocateNewBlock` always links
the new block, whether or not the retry succeeds. -/
def Memblockimpl.allocate (numBytes : Nat) (s : Memblockimpl) : Option Ptr × Memblockimpl :=
  match s.cur.allocate numBytes with
  | (some off, cur2) =>
      (some ⟨s.front.length, off⟩, Memblockimpl.bumpStats numBytes { s with cur := cur2 })
  | (none, _) =>
      let nb := Memblock.create (Memblockimpl.newBlockSize numBytes s)
      match nb.allocate numBytes with
      | (some off, nb2) =>
          (some ⟨s.front.length + 1, off⟩,
           Memblockimpl.bumpStats numBytes { s with front := s.front ++ [s.cur], cur := nb2 })
      | (none, nb2) =>
          (none,
           Memblockimpl.bumpStats numBytes { s with front := s.front ++ [s.cur], cur := nb2 })

/-- `_memblockimpl::deallocate` (extended variant, `arenaallocimpl.h`):
`++m_numDeallocate;` — nothing else. -/
def Memblockimpl.deallocate (_ptr : Ptr) (s : Memblockimpl) : Memblockimpl :=
  { s with numDeallocate := (s.numDeallocate + 1) % W }

/-- `Alloc::deallocate` (basic variant, `arenaalloc.h`): an empty body; the
arena state is untouched. -/
def Alloc.deallocate (_p : Ptr) (_count : Nat) (s : Memblockimpl) : Memblockimpl :=
  s

/-- One call of the backing store's `deallocate`, tagged with what is being
released: a block's buffer (`dispose`), a block's own node storage, or the
arena state's own storage. -/
inductive DeallocCall where
  | buffer (b : Memblock)
  | node (b : Memblock)
  | implSelf
deriving DecidableEq

/-- The backing-store `deallocate` calls the `~_memblockimpl` while-loop makes
for the genuinely linked blocks of the chain: for each block, in order,
`curr->dispose( m_alloc )` (releasing the buffer) followed by
`m_alloc.deallocate( curr )` (releasing the node). -/
def Memblockimpl.chainCalls (s : Memblockimpl) : List DeallocCall :=
  (s.blocks.map fun b => [DeallocCall.buffer b, DeallocCall.node b]).flatten

/-- The backing-store `deallocate` calls of a whole teardown (`~_memblockimpl`
followed by `destroy`'s release of the arena state's own storage), as a
function of the value the walk reads from the tail block's `m_next`.
`_memblock`'s constructor init list omits `m_next` and `allocateNewBlock`
assigns only the predecessor's `m_next` (`m_current->m_next = newBlock`), so
the chain's tail block's `m_next` is never written: the destructor's
`while( block )` loop ends by reading those indeterminate bytes.  Only when
they happen to read as the null pointer does the walk stop at the real chain,
yielding its calls followed by `allocImpl.deallocate( objToDestroy )`; for any
other value the loop walks on into storage that holds no `_memblock`, and its
behavior — which further calls it makes, whether it terminates at all — is
undefined (`none`). -/
def Memblockimpl.teardownCalls (tailNextReadsNull : Bool) (s : Memblockimpl) :
    Option (List DeallocCall) :=
  if tailNextReadsNull then
    some (s.chainCalls ++ [DeallocCall.implSelf])
  else
    none

/-- `_memblockimpl::incrementRefCount`: `++m_refCount` (`size_t`). -/
def Memblockimpl.incrementRefCount (s : Memblockimpl) : Memblockimpl :=
  { s with refCount := (s.refCount + 1) % W }

/-- `_memblockimpl::decrementRefCount`: `--m_refCount` (`size_t`, wraps on 0);
if the count reaches 0 the object destroys itself (`destroy( this )`) — the
teardown's backing-store calls are modelled by `teardownCalls` — and no live
state remains (`none`). -/
def Memblockimpl.decrementRefCount (s : Memblockimpl) : Option Memblockimpl :=
  let rc := (s.refCount + (W - 1)) % W
  if rc = 0 then
    none
  else
    some { s with refCount := rc }

/-- The byte region handed out by one successful allocation request: it lies
in block `block` of the chain and covers offsets `[start, start + len)` there,
where `len` is the number of bytes that were requested. -/
structure Region where
  block : Nat
  start : Nat
  len : Nat
deriving DecidableEq

/-- Two regions alias iff they lie in the same block's buffer and their
half-open offset intervals have a common element (so a zero-length region
intersects nothing).  Buffers of distinct blocks are distinct backing-store
allocations and never overlap. -/
def Region.overlaps (r1 r2 : Region) : Prop :=
  r1.block = r2.block ∧
    max r1.start r2.start < min (r1.start + r1.len) (r2.start + r2.len)

instance (r1 r2 : Region) : Decidable (r1.overlaps r2) := by
  unfold Region.overlaps; infer_instance

/-- The region recorded for one `allocate` call: none if the call returned the
null sentinel. -/
def recordRegion (n : Nat) : Option Ptr → List Region
  | some p => [⟨p.block, p.offset, n⟩]
  | none => []

/-- Run a sequence of `_memblockimpl::allocate` calls against an arena state,
returning the regions handed out (in call order) and the final state. -/
def runAlloc : List Nat → Memblockimpl → List Region × Memblockimpl
  | [], s => ([], s)
  | n :: ns, s =>
      let res := Memblockimpl.allocate n s
      let rest := runAlloc ns res.2
      (recordRegion n res.1 ++ rest.1, rest.2)

/-- An `Alloc<T>` handle: its only runtime state is `m_impl`, the pointer to
the shared `_memblockimpl`, modelled as an identifier (`new` returns distinct
addresses for distinct live objects, so identifier equality is pointer
equality).  `T` is the phantom element type. -/
structure Handle (T : Type) where
  implId : Nat

/-- The copy constructor `Alloc(const Alloc& src)`: `m_impl( src.m_impl )`
(the refcount side effect is `Memblockimpl.incrementRefCount`). -/
def Handle.copy {T : Type} (src : Handle T) : Handle T :=
  { implId := src.implId }

/-- The rebinding constructor `template <class U> Alloc(const Alloc<U>& src)`:
`_memblockimpl::assign( src, m_impl )` sets `m_impl = src.m_impl` (then the
refcount is incremented). -/
def Handle.rebind {T : Type} (U : Type) (src : Handle T) : Handle U :=
  { implId := src.implId }

/-- `Alloc::equals( const _memblockimpl * impl )`: `impl == m_impl`. -/
def Handle.equalsImpl {T : Type} (h : Handle T) (impl : Nat) : Bool :=
  impl == h.implId

/-- The free `operator== (const Alloc<T1,T3>&, const Alloc<T2,T3>&)`:
`t2.equals( t1.m_impl )`. -/
def handleEq {T1 T2 : Type} (t1 : Handle T1) (t2 : Handle T2) : Bool :=
  t2.equalsImpl t1.implId

/-- The member `Alloc::operator== (const Alloc& t2)`: `m_impl == t2.m_impl`. -/
def Handle.memberEq {T : Type} (t1 t2 : Handle T) : Bool :=
  t1.implId == t2.implId

/-- One event on the handles sharing a single arena state: construction of a
new handle by copy or rebind from a live one, or destruction of a live one. -/
inductive HandleEvent where
  | copy
  | destroy
deriving DecidableEq

/-- Number of copy/rebind constructions in an event list. -/
def countCopies : List HandleEvent → Nat
  | [] => 0
  | HandleEvent.copy :: es => countCopies es + 1
  | HandleEvent.destroy :: es => countCopies es

/-- Number of handle destructions in an event list. -/
def countDestroys : List HandleEvent → Nat
  | [] => 0
  | HandleEvent.copy :: es => countDestroys es
  | HandleEvent.destroy :: es => countDestroys es + 1

/-- Number of handles still live after an event list, starting from `live`
live handles (truncated subtraction never fires on `prefixOk` lists). -/
def finalLive : Nat → List HandleEvent → Nat
  | live, [] => live
  | live, HandleEvent.copy :: es => finalLive (live + 1) es
  | live, HandleEvent.destroy :: es => finalLive (live - 1) es

/-- An event list is executable from `live` live handles: every event needs at
least one live handle to copy from or to destroy (in particular no event can
follow the destruction of the last handle). -/
def prefixOk : Nat → List HandleEvent → Bool
  | _, [] => true
  | 0, _ :: _ => false
  | live + 1, HandleEvent.copy :: es => prefixOk (live + 2) es
  | live + 1, HandleEvent.destroy :: es => prefixOk live es

/-- A valid interleaving of `n` copy/rebind constructions and `n + 1`
destructions (the `n` copies plus the original handle), starting from the
single original handle.  `n + 2 ≤ W` records the architectural bound: each
live handle is a distinct live object of nonzero size in a `2^64`-byte address
space, so there can never be `2^64` simultaneously live handles. -/
def validInterleaving (n : Nat) (es : List HandleEvent) : Prop :=
  countCopies es = n ∧ countDestroys es = n + 1 ∧ prefixOk 1 es = true ∧ n + 2 ≤ W

instance (n : Nat) (es : List HandleEvent) : Decidable (validInterleaving n es) := by
  unfold validInterleaving; infer_instance

/-- Run an event list against an arena state, counting how many times the
arena state is torn down (`decrementRefCount` reaching zero destroys the
state; on `prefixOk` lists this can only be the final event, and any event
after a teardown would be a use after free, so the run stops there). -/
def runHandles : List HandleEvent → Memblockimpl → Nat
  | [], _ => 0
  | HandleEvent.copy :: es, s => runHandles es s.incrementRefCount
  | HandleEvent.destroy :: es, s =>
      (s.decrementRefCount).elim 1 (fun s2 => runHandles es s2)

/-- Bounded well-formedness of a block, the no-`size_t`-overflow regime: the
cursor is within the capacity, the capacity is at most `2^63`, and both are
multiples of the 8-byte alignment unit.  Every block an arena built with a
default size `≤ 2^62` and fed requests `≤ 2^62` ever holds satisfies this. -/
def Memblock.good (b : Memblock) : Prop :=
  b.index ≤ b.bufferSize ∧ b.bufferSize ≤ 2 ^ 63 ∧ b.index % 8 = 0 ∧ b.bufferSize % 8 = 0

/-- Bounded well-formedness of an arena state: all blocks `good` and the
default size at most `2^62`. -/
def Memblockimpl.good (s : Memblockimpl) : Prop :=
  (∀ b ∈ s.blocks, b.good) ∧ s.defaultSize ≤ 2 ^ 62

/-- A region already handed out by the arena: it lies, 8-aligned, entirely
below the bump cursor of an existing block of the chain. -/
def Region.okAt (s : Memblockimpl) (r : Region) : Prop :=
  r.start % 8 = 0 ∧ ∃ b, s.blocks.get? r.block = some b ∧ r.start + r.len ≤ b.index

/-! ### Helper lemmas -/

theorem roundSize_lt_W (n : Nat) : roundSize n < W := by
  unfold roundSize
  have h1 : (n + 7) % W < W := Nat.mod_lt _ (by unfold W; positivity)
  have h2 : (n + 7) % W / 8 * 8 ≤ (n + 7) % W := Nat.div_mul_le_self _ _
  omega

theorem roundSize_eq_of_lt {n : Nat} (h : n + 7 < W) : roundSize n = (n + 7) / 8 * 8 := by
  unfold roundSize
  rw [Nat.mod_eq_of_lt h]

theorem le_roundSize {n : Nat} (h : n + 7 < W) : n ≤ roundSize n := by
  rw [roundSize_eq_of_lt h]
  omega

theorem roundSize_le {n : Nat} (h : n + 7 < W) : roundSize n ≤ n + 7 := by
  rw [roundSize_eq_of_lt h]
  exact Nat.div_mul_le_self _ _

theorem roundSize_mono {n m : Nat} (hm : m + 7 < W) (hnm : n ≤ m) :
    roundSize n ≤ roundSize m := by
  rw [roundSize_eq_of_lt (by omega), roundSize_eq_of_lt hm]
  have : (n + 7) / 8 ≤ (m + 7) / 8 := Nat.div_le_div_right (by omega)
  omega

theorem roundSize_mod8 (n : Nat) : roundSize n % 8 = 0 := by
  unfold roundSize
  exact Nat.mul_mod_left _ 8

theorem roundSize_le_p62 {n : Nat} (h : n ≤ 2 ^ 62) : roundSize n ≤ 2 ^ 62 := by
  calc roundSize n ≤ roundSize (2 ^ 62) := roundSize_mono (by decide) h
    _ = 2 ^ 62 := by decide

theorem roundSize_le_p63 {n : Nat} (h : n ≤ 2 ^ 63) : roundSize n ≤ 2 ^ 63 := by
  calc roundSize n ≤ roundSize (2 ^ 63) := roundSize_mono (by decide) h
    _ = 2 ^ 63 := by decide

theorem Memblock.allocate_fail {b : Memblock} {n : Nat}
    (h : b.bufferSize < (roundSize n + b.index) % W) :
    Memblock.allocate n b = (none, b) := by
  unfold Memblock.allocate
  rw [if_pos h]

theorem Memblock.allocate_success {b : Memblock} {n : Nat}
    (h : (roundSize n + b.index) % W ≤ b.bufferSize) :
    Memblock.allocate n b = (some b.index, { b with index := (b.index + roundSize n) % W }) := by
  unfold Memblock.allocate
  rw [if_neg (by omega)]

theorem Memblockimpl.allocate_eq_cur_success {s : Memblockimpl} {n : Nat}
    (h : (roundSize n + s.cur.index) % W ≤ s.cur.bufferSize) :
    Memblockimpl.allocate n s =
      (some ⟨s.front.length, s.cur.index⟩,
       Memblockimpl.bumpStats n
         { s with cur := { s.cur with index := (s.cur.index + roundSize n) % W } }) := by
  unfold Memblockimpl.allocate
  rw [Memblock.allocate_success h]

theorem Memblockimpl.allocate_eq_grow_success {s : Memblockimpl} {n : Nat}
    (h1 : s.cur.bufferSize < (roundSize n + s.cur.index) % W)
    (h2 : roundSize n ≤ roundSize (Memblockimpl.newBlockSize n s)) :
    Memblockimpl.allocate n s =
      (some ⟨s.front.length + 1, 0⟩,
       Memblockimpl.bumpStats n
         { s with
           front := s.front ++ [s.cur]
           cur := { bufferSize := roundSize (Memblockimpl.newBlockSize n s)
                    index := roundSize n
                    requestedBytes := Memblockimpl.newBlockSize n s } }) := by
  unfold Memblockimpl.allocate
  rw [Memblock.allocate_fail h1]
  dsimp only
  have hz : (roundSize n + (Memblock.create (Memblockimpl.newBlockSize n s)).index) % W
      = roundSize n := by
    show (roundSize n + 0) % W = roundSize n
    rw [Nat.add_zero, Nat.mod_eq_of_lt (roundSize_lt_W n)]
  rw [Memblock.allocate_success (by rw [hz]; exact h2)]
  dsimp only
  rw [show ((Memblock.create (Memblockimpl.newBlockSize n s)).index + roundSize n) % W
        = roundSize n by
      show (0 + roundSize n) % W = roundSize n
      rw [Nat.zero_add, Nat.mod_eq_of_lt (roundSize_lt_W n)]]
  rfl

theorem Memblockimpl.allocate_eq_grow_fail {s : Memblockimpl} {n : Nat}
    (h1 : s.cur.bufferSize < (roundSize n + s.cur.index) % W)
    (h2 : roundSize (Memblockimpl.newBlockSize n s) < roundSize n) :
    Memblockimpl.allocate n s =
      (none,
       Memblockimpl.bumpStats n
         { s with
           front := s.front ++ [s.cur]
           cur := Memblock.create (Memblockimpl.newBlockSize n s) }) := by
  unfold Memblockimpl.allocate
  rw [Memblock.allocate_fail h1]
  dsimp only
  have hz : (roundSize n + (Memblock.create (Memblockimpl.newBlockSize n s)).index) % W
      = roundSize n := by
    show (roundSize n + 0) % W = roundSize n
    rw [Nat.add_zero, Nat.mod_eq_of_lt (roundSize_lt_W n)]
  rw [Memblock.allocate_fail (by rw [hz]; exact h2)]

/-! ### Claim theorems -/

/-- Claim C1: for every allocator handle (arena state), pointer and count,
`deallocate(ptr, count)` reclaims no memory: in the basic variant
(`arenaalloc.h`) it is the identity on the arena state, and in the extended
variant (`arenaallocimpl.h`) the only state change is incrementing the
deallocation-notification counter (a `size_t`, hence modulo `2^64`): the block
chain, every block's offset, the bytes-in-use sum and the reference count are
all unchanged. -/
theorem deallocate_reclaims_nothing (s : Memblockimpl) (p : Ptr) (count : Nat) :
    Alloc.deallocate p count s = s ∧
    Memblockimpl.deallocate p s = { s with numDeallocate := (s.numDeallocate + 1) % W } ∧
    (Memblockimpl.deallocate p s).blocks = s.blocks ∧
    (Memblockimpl.deallocate p s).bytesInUse = s.bytesInUse ∧
    (Memblockimpl.deallocate p s).refCount = s.refCount ∧
    (Memblockimpl.deallocate p s).numDeallocate = (s.numDeallocate + 1) % W :=
  ⟨rfl, rfl, rfl, rfl, rfl, rfl⟩

/-- Claim C4 (amended): for every block and request of `n` bytes, with
`r = roundSize n` — which is `n` rounded up to the 8-byte alignment unit —
and provided the `size_t` sums do not wrap (`n + 7 < 2^64` and
`offset + r < 2^64`): if `offset + r > capacity` then `allocate` returns the
null sentinel and leaves the block unchanged, otherwise it returns the current
offset and advances the offset by exactly `r`.  (The claim as stated, without
the no-wrap proviso, is refuted by `block_allocate_wrap_ce`.) -/
theorem block_allocate_bump (b : Memblock) (n : Nat)
    (hn : n + 7 < W) (hno : b.index + roundSize n < W) :
    (n ≤ roundSize n ∧ roundSize n ≤ n + 7 ∧ roundSize n % 8 = 0) ∧
    (b.bufferSize < roundSize n + b.index → Memblock.allocate n b = (none, b)) ∧
    (roundSize n + b.index ≤ b.bufferSize →
      Memblock.allocate n b = (some b.index, { b with index := b.index + roundSize n })) := by
  refine ⟨⟨le_roundSize hn, roundSize_le hn, roundSize_mod8 n⟩, ?_, ?_⟩
  · intro h
    exact Memblock.allocate_fail (by rw [Nat.mod_eq_of_lt (by omega)]; omega)
  · intro h
    rw [Memblock.allocate_success (by rw [Nat.mod_eq_of_lt (by omega)]; omega)]
    rw [Nat.mod_eq_of_lt (by omega)]

/-- Witness for C4: a fresh 256-byte block accepts a 10-byte request, returns
offset 0 and advances the cursor by `roundSize 10 = 16`. -/
theorem block_allocate_bump_witness :
    (10 + 7 < W ∧ (Memblock.create 256).index + roundSize 10 < W) ∧
    Memblock.allocate 10 (Memblock.create 256) =
      (some (Memblock.create 256).index,
       { Memblock.create 256 with index := (Memblock.create 256).index + roundSize 10 }) :=
  ⟨⟨by decide, by decide⟩,
   (block_allocate_bump (Memblock.create 256) 10 (by decide) (by decide)).2.2 (by decide)⟩

/-- Counterexample to C4 as stated: on a 256-byte block whose cursor is at 16,
a request of `2^64 - 8` bytes has `offset + r = 2^64 + 8 > capacity`, yet the
`size_t` comparison wraps, so `allocate` does not fail: it returns offset 16
and moves the cursor backwards to 8. -/
theorem block_allocate_wrap_ce :
    ((Memblock.create 256).allocate 16).2.bufferSize <
      ((Memblock.create 256).allocate 16).2.index + roundSize (2 ^ 64 - 8) ∧
    (((Memblock.create 256).allocate 16).2.allocate (2 ^ 64 - 8)).1 = some 16 ∧
    (((Memblock.create 256).allocate 16).2.allocate (2 ^ 64 - 8)).2.index = 8 := by
  decide

/-- Claim C5: on every arena state (with the current block satisfying its
basic invariant), a zero-byte request succeeds, returns the pointer at the
current bump position of the current block without advancing it, and the
returned zero-length region overlaps no region whatsoever. -/
theorem allocate_zero_succeeds (s : Memblockimpl)
    (hwf : s.cur.index ≤ s.cur.bufferSize) (hlt : s.cur.bufferSize < W) :
    (Memblockimpl.allocate 0 s).1 = some ⟨s.front.length, s.cur.index⟩ ∧
    (Memblockimpl.allocate 0 s).2.cur.index = s.cur.index ∧
    (∀ r : Region, ¬ Region.overlaps ⟨s.front.length, s.cur.index, 0⟩ r ∧
                   ¬ Region.overlaps r ⟨s.front.length, s.cur.index, 0⟩) := by
  have h0 : roundSize 0 = 0 := by decide
  have hc : (roundSize 0 + s.cur.index) % W ≤ s.cur.bufferSize := by
    rw [h0, Nat.zero_add, Nat.mod_eq_of_lt (by omega)]
    exact hwf
  rw [Memblockimpl.allocate_eq_cur_success hc]
  refine ⟨rfl, ?_, ?_⟩
  · show (s.cur.index + roundSize 0) % W = s.cur.index
    rw [h0, Nat.add_zero, Nat.mod_eq_of_lt (by omega)]
  · intro r
    constructor
    · intro hov
      unfold Region.overlaps at hov
      obtain ⟨-, hov⟩ := hov
      simp only at hov
      omega
    · intro hov
      unfold Region.overlaps at hov
      obtain ⟨-, hov⟩ := hov
      simp only at hov
      omega

/-- Witness for C5: a zero-byte request on a fresh arena of default size 256
returns the pointer at block 0, offset 0. -/
theorem allocate_zero_succeeds_witness :
    ((Memblockimpl.create 256).cur.index ≤ (Memblockimpl.create 256).cur.bufferSize ∧
     (Memblockimpl.create 256).cur.bufferSize < W) ∧
    (Memblockimpl.allocate 0 (Memblockimpl.create 256)).1 =
      some ⟨(Memblockimpl.create 256).front.length, (Memblockimpl.create 256).cur.index⟩ :=
  ⟨⟨by decide, by decide⟩, (allocate_zero_succeeds _ (by decide) (by decide)).1⟩

/-- Claim C8: for all handles, of equal or different element types, the
equality operators compare exactly the shared `m_impl` identity: equality
holds iff both handles reference the same arena state, so all handles
produced by copy or rebind from a common origin compare equal to each other
and to the origin, and handles whose arena states differ (as all
independently constructed arenas do, `new` returning distinct addresses for
distinct live objects) never compare equal. -/
theorem handle_equality_iff_shared_impl (T1 T2 T3 : Type)
    (h1 : Handle T1) (h2 : Handle T2) (h3 : Handle T1) :
    (handleEq h1 h2 = true ↔ h1.implId = h2.implId) ∧
    (handleEq h1 h2 = false ↔ h1.implId ≠ h2.implId) ∧
    (Handle.memberEq h1 h3 = true ↔ h1.implId = h3.implId) ∧
    handleEq (Handle.copy h1) h1 = true ∧
    handleEq (Handle.rebind T3 h1) h1 = true ∧
    handleEq (Handle.rebind T2 (Handle.copy h1)) (Handle.rebind T3 h1) = true := by
  refine ⟨?_, ?_, ?_, ?_, ?_, ?_⟩ <;>
    simp [handleEq, Handle.equalsImpl, Handle.memberEq, Handle.copy, Handle.rebind]

/-- Claim C10: an arena constructed with default size 300 creates a block
that requests exactly 300 bytes from the backing store but records
`roundSize 300 = 304` as its capacity; bump allocation then fills the block up
to offset 304, and the 38th 8-byte allocation is handed out at offset 296,
extending to offset 304 — past the end of the 300 bytes actually obtained. -/
theorem block_capacity_exceeds_obtained :
    (Memblockimpl.create 300).cur.requestedBytes = 300 ∧
    (Memblockimpl.create 300).cur.bufferSize = 304 ∧
    (runAlloc (List.replicate 38 8) (Memblockimpl.create 300)).1.get? 37 = some ⟨0, 296, 8⟩ ∧
    (Memblockimpl.create 300).cur.requestedBytes < 296 + 8 := by
  decide

/-- Claim C2 (amended): for every arena state with default size `d` and every
request of `n` bytes the current block cannot satisfy, provided `2n < 2^64`
(no `size_t` overflow in the doubling), exactly one new block is appended (the
old chain is kept intact and the new block becomes the current one), and it is
sized `max(2n, d)` when `n > d/2` and `d` otherwise — both as the number of
bytes requested from the backing store and, rounded to the alignment unit, as
its recorded capacity.  (Without the proviso the claim is refuted by
`grow_block_size_overflow_ce`.) -/
theorem grow_appends_one_sized_block (s : Memblockimpl) (n : Nat)
    (hfail : s.cur.bufferSize < (roundSize n + s.cur.index) % W)
    (hno : 2 * n < W) :
    (Memblockimpl.allocate n s).2.front = s.front ++ [s.cur] ∧
    (Memblockimpl.allocate n s).2.blocks.length = s.blocks.length + 1 ∧
    (Memblockimpl.allocate n s).2.cur.requestedBytes =
      (if s.defaultSize / 2 < n then max (2 * n) s.defaultSize else s.defaultSize) ∧
    (Memblockimpl.allocate n s).2.cur.bufferSize =
      roundSize (if s.defaultSize / 2 < n then max (2 * n) s.defaultSize else s.defaultSize) := by
  have hsize : Memblockimpl.newBlockSize n s =
      (if s.defaultSize / 2 < n then max (2 * n) s.defaultSize else s.defaultSize) := by
    unfold Memblockimpl.newBlockSize
    by_cases hd : s.defaultSize / 2 < n
    · rw [if_pos hd, if_pos hd, Nat.mod_eq_of_lt (by omega)]
      omega
    · rw [if_neg hd, if_neg hd]
  rcases le_or_lt (roundSize n) (roundSize (Memblockimpl.newBlockSize n s)) with h2 | h2
  · rw [Memblockimpl.allocate_eq_grow_success hfail h2]
    refine ⟨rfl, ?_, ?_, ?_⟩
    · simp [Memblockimpl.blocks, Memblockimpl.bumpStats]
    · show Memblockimpl.newBlockSize n s = _
      exact hsize
    · show roundSize (Memblockimpl.newBlockSize n s) = _
      rw [hsize]
  · rw [Memblockimpl.allocate_eq_grow_fail hfail h2]
    refine ⟨rfl, ?_, ?_, ?_⟩
    · simp [Memblockimpl.blocks, Memblockimpl.bumpStats]
    · show Memblockimpl.newBlockSize n s = _
      exact hsize
    · show roundSize (Memblockimpl.newBlockSize n s) = _
      rw [hsize]

/-- Witness for C2: with `d = 256` the request `n = 300` misses the current
block, and the appended block requests `max(600, 256) = 600` bytes; its
capacity is at least 600. -/
theorem grow_appends_one_sized_block_witness :
    ((Memblockimpl.create 256).cur.bufferSize <
        (roundSize 300 + (Memblockimpl.create 256).cur.index) % W) ∧
    2 * 300 < W ∧
    (Memblockimpl.allocate 300 (Memblockimpl.create 256)).2.cur.requestedBytes =
      (if (Memblockimpl.create 256).defaultSize / 2 < 300
        then max (2 * 300) (Memblockimpl.create 256).defaultSize
        else (Memblockimpl.create 256).defaultSize) ∧
    600 ≤ (Memblockimpl.allocate 300 (Memblockimpl.create 256)).2.cur.bufferSize :=
  ⟨by decide, by decide,
   (grow_appends_one_sized_block (Memblockimpl.create 256) 300 (by decide) (by decide)).2.2.1,
   by decide⟩

/-- Counterexample to C2 as stated: with `d = 256` and `n = 2^63` the current
block cannot satisfy the request and a block is appended, but it is sized
`(2n) mod 2^64 = 0`, not `max(2n, d) = 2^64`. -/
theorem grow_block_size_overflow_ce :
    ((Memblockimpl.create 256).cur.bufferSize <
        (roundSize (2 ^ 63) + (Memblockimpl.create 256).cur.index) % W) ∧
    (Memblockimpl.create 256).defaultSize / 2 < 2 ^ 63 ∧
    (Memblockimpl.allocate (2 ^ 63) (Memblockimpl.create 256)).2.cur.requestedBytes = 0 ∧
    max (2 * 2 ^ 63) (Memblockimpl.create 256).defaultSize = 2 ^ 64 ∧
    (0 : Nat) ≠ 2 ^ 64 := by
  decide

/-- Claim C3 (amended): when the current block cannot satisfy a request of `n`
bytes then — the backing store always supplying the new buffer in this model,
and provided the chosen new block size (`2n` or `d`) is small enough that its
rounded capacity does not wrap (`size + 7 < 2^64`) — the retried allocation on
the newly appended block succeeds: the arena-level allocate returns the
pointer at offset 0 of the new block, never the failure sentinel.  (Without
the proviso the claim is refuted by `grow_retry_overflow_ce`.) -/
theorem grow_retry_succeeds (s : Memblockimpl) (n : Nat)
    (hfail : s.cur.bufferSize < (roundSize n + s.cur.index) % W)
    (hno : (if s.defaultSize / 2 < n then 2 * n else s.defaultSize) + 7 < W) :
    (Memblockimpl.allocate n s).1 = some ⟨s.front.length + 1, 0⟩ := by
  have h2 : roundSize n ≤ roundSize (Memblockimpl.newBlockSize n s) := by
    unfold Memblockimpl.newBlockSize
    by_cases hd : s.defaultSize / 2 < n
    · rw [if_pos hd] at hno ⊢
      rw [Nat.mod_eq_of_lt (by omega)]
      exact roundSize_mono (by omega) (by omega)
    · rw [if_neg hd] at hno ⊢
      exact roundSize_mono hno (by omega)
  rw [Memblockimpl.allocate_eq_grow_success hfail h2]

/-- Witness for C3: with `d = 256`, the request `n = 300` misses the current
block, and the retry on the appended 600-byte block succeeds at offset 0. -/
theorem grow_retry_succeeds_witness :
    ((Memblockimpl.create 256).cur.bufferSize <
        (roundSize 300 + (Memblockimpl.create 256).cur.index) % W) ∧
    ((if (Memblockimpl.create 256).defaultSize / 2 < 300
        then 2 * 300 else (Memblockimpl.create 256).defaultSize) + 7 < W) ∧
    (Memblockimpl.allocate 300 (Memblockimpl.create 256)).1 =
      some ⟨(Memblockimpl.create 256).front.length + 1, 0⟩ :=
  ⟨by decide, by decide, grow_retry_succeeds (Memblockimpl.create 256) 300 (by decide) (by decide)⟩

/-- Counterexample to C3 as stated: with `d = 256` a request of `2^63` bytes
fails on the current block; the backing store supplies the new block's buffer
(the wrapped size `(2 * 2^63) mod 2^64 = 0` bytes is requested and obtained),
yet the retry fails too and the arena-level allocate returns the failure
sentinel. -/
theorem grow_retry_overflow_ce :
    ((Memblockimpl.create 256).cur.bufferSize <
        (roundSize (2 ^ 63) + (Memblockimpl.create 256).cur.index) % W) ∧
    (Memblockimpl.allocate (2 ^ 63) (Memblockimpl.create 256)).1 = none ∧
    (Memblockimpl.allocate (2 ^ 63) (Memblockimpl.create 256)).2.cur.requestedBytes = 0 := by
  decide

theorem flatten_pairs_length {α β : Type} (f g : α → β) (l : List α) :
    ((l.map fun b => [f b, g b]).flatten).length = 2 * l.length := by
  induction l with
  | nil => rfl
  | cons a l ih =>
      simp only [List.map_cons, List.flatten_cons, List.length_append, List.length_cons, ih]
      simp only [List.length_nil]
      omega

/-- Claim C9 (code bug): the claim — and the source's own comment "blocks kept
link listed for cleanup at end" — describe teardown as walking the chain,
releasing every block back to the backing store and freeing the arena state's
storage; but `_memblock::m_next` is never initialized (the constructor's init
list omits it, and `allocateNewBlock` assigns only the predecessor's
`m_next`), so the `while( block )` walk of `~_memblockimpl` ends by reading
the tail block's indeterminate `m_next`: its termination and its
backing-store call count are undefined (`teardownCalls false s = none`).
Only when the indeterminate bytes happen to read as null does teardown stop
at the real chain; it then does release every block's buffer and node and the
arena state's storage, but with `2 * (number of blocks) + 1` deallocate
calls, not the number of blocks as the claim also states. -/
theorem teardown_walk_reads_uninitialized (s : Memblockimpl) :
    Memblockimpl.teardownCalls false s = none ∧
    Memblockimpl.teardownCalls true s = some (s.chainCalls ++ [DeallocCall.implSelf]) ∧
    (s.chainCalls ++ [DeallocCall.implSelf]).length = 2 * s.blocks.length + 1 ∧
    (∀ b ∈ s.blocks,
        DeallocCall.buffer b ∈ s.chainCalls ∧ DeallocCall.node b ∈ s.chainCalls) ∧
    (s.refCount = 1 → Memblockimpl.decrementRefCount s = none) := by
  refine ⟨rfl, rfl, ?_, ?_, ?_⟩
  · unfold Memblockimpl.chainCalls
    rw [List.length_append, flatten_pairs_length]
    rfl
  · intro b hb
    unfold Memblockimpl.chainCalls
    constructor
    · refine List.mem_flatten.mpr ?_
      exact ⟨[DeallocCall.buffer b, DeallocCall.node b],
             List.mem_map_of_mem _ hb, by simp⟩
    · refine List.mem_flatten.mpr ?_
      exact ⟨[DeallocCall.buffer b, DeallocCall.node b],
             List.mem_map_of_mem _ hb, by simp⟩
  · intro h1
    unfold Memblockimpl.decrementRefCount
    rw [h1]
    have hW : 0 < W := by decide
    have : (1 + (W - 1)) % W = 0 := by
      rw [show 1 + (W - 1) = W by omega, Nat.mod_self]
    rw [if_pos this]

/-- Witness for C9 at the failing input, a fresh one-block arena whose only
handle is destroyed: the destructor's very first loop iteration reads the
single block's never-initialized `m_next`, so the teardown is undefined
unless those bytes read as null — and in that lucky case it makes 3
backing-store deallocate calls for the 1-block chain, not 1. -/
theorem teardown_walk_reads_uninitialized_witness :
    Memblockimpl.teardownCalls false (Memblockimpl.create 256) = none ∧
    Memblockimpl.decrementRefCount (Memblockimpl.create 256) = none ∧
    DeallocCall.buffer (Memblockimpl.create 256).cur ∈ (Memblockimpl.create 256).chainCalls ∧
    ((Memblockimpl.create 256).chainCalls ++ [DeallocCall.implSelf]).length = 3 ∧
    (Memblockimpl.create 256).blocks.length = 1 ∧
    (3 : Nat) ≠ 1 :=
  ⟨(teardown_walk_reads_uninitialized _).1,
   (teardown_walk_reads_uninitialized _).2.2.2.2 rfl,
   ((teardown_walk_reads_uninitialized (Memblockimpl.create 256)).2.2.2.1
      (Memblockimpl.create 256).cur (by decide)).1,
   by decide, by decide, by decide⟩

theorem prefixOk_nil (L : Nat) : prefixOk L [] = true := by
  cases L <;> rfl

theorem prefixOk_take (es : List HandleEvent) :
    ∀ (k L : Nat), prefixOk L es = true → prefixOk L (es.take k) = true := by
  induction es with
  | nil =>
      intro k L _
      rw [List.take_nil]
      exact prefixOk_nil L
  | cons e es ih =>
      intro k L h
      cases k with
      | zero => exact prefixOk_nil L
      | succ k =>
          cases L with
          | zero => simp [prefixOk] at h
          | succ L =>
              cases e with
              | copy => exact ih k (L + 2) h
              | destroy => exact ih k L h

theorem prefixOk_pos_mid (xs : List HandleEvent) :
    ∀ (y : HandleEvent) (ys : List HandleEvent) (L : Nat),
      prefixOk L (xs ++ y :: ys) = true → 0 < finalLive L xs := by
  induction xs with
  | nil =>
      intro y ys L h
      cases L with
      | zero => simp [prefixOk] at h
      | succ L => exact Nat.succ_pos L
  | cons e xs ih =>
      intro y ys L h
      cases L with
      | zero => simp [prefixOk] at h
      | succ L =>
          cases e with
          | copy => exact ih y ys (L + 2) h
          | destroy => exact ih y ys L h

theorem finalLive_counts (es : List HandleEvent) :
    ∀ L : Nat, prefixOk L es = true →
      finalLive L es + countDestroys es = L + countCopies es := by
  induction es with
  | nil => intro L _; rfl
  | cons e es ih =>
      intro L h
      cases L with
      | zero => cases e <;> simp [prefixOk] at h
      | succ L =>
          cases e with
          | copy =>
              have := ih (L + 1 + 1) h
              simp only [finalLive, countCopies, countDestroys]
              omega
          | destroy =>
              have := ih L h
              simp only [finalLive, countCopies, countDestroys, Nat.add_sub_cancel]
              omega

theorem countCopies_take_le (es : List HandleEvent) :
    ∀ k : Nat, countCopies (es.take k) ≤ countCopies es := by
  induction es with
  | nil =>
      intro k
      rw [List.take_nil]
  | cons e es ih =>
      intro k
      cases k with
      | zero => exact Nat.zero_le _
      | succ k =>
          cases e with
          | copy =>
              simp only [List.take_succ_cons, countCopies]
              exact Nat.add_le_add_right (ih k) 1
          | destroy =>
              simp only [List.take_succ_cons, countCopies]
              exact ih k

theorem runHandles_destroy_some {es : List HandleEvent} {s s2 : Memblockimpl}
    (h : s.decrementRefCount = some s2) :
    runHandles (HandleEvent.destroy :: es) s = runHandles es s2 := by
  show (s.decrementRefCount).elim 1 (fun s2 => runHandles es s2) = runHandles es s2
  rw [h]
  rfl

theorem runHandles_destroy_none {es : List HandleEvent} {s : Memblockimpl}
    (h : s.decrementRefCount = none) :
    runHandles (HandleEvent.destroy :: es) s = 1 := by
  show (s.decrementRefCount).elim 1 (fun s2 => runHandles es s2) = 1
  rw [h]
  rfl

theorem runHandles_aux (es : List HandleEvent) :
    ∀ (live : Nat) (s : Memblockimpl), prefixOk (live + 1) es = true →
      s.refCount = live + 1 → live + 1 + countCopies es < W →
      runHandles es s = if finalLive (live + 1) es = 0 then 1 else 0 := by
  induction es with
  | nil =>
      intro live s _ _ _
      rw [if_neg (by show live + 1 ≠ 0; omega)]
      rfl
  | cons e es ih =>
      intro live s hok hrc hW
      cases e with
      | copy =>
          have hcc : countCopies (HandleEvent.copy :: es) = countCopies es + 1 := rfl
          have hrc2 : s.incrementRefCount.refCount = live + 2 := by
            show (s.refCount + 1) % W = live + 2
            rw [hrc, Nat.mod_eq_of_lt (by omega)]
          show runHandles es s.incrementRefCount = _
          rw [ih (live + 1) s.incrementRefCount hok hrc2 (by omega)]
          rfl
      | destroy =>
          have hcd : countCopies (HandleEvent.destroy :: es) = countCopies es := rfl
          have hlive : live < W := by omega
          have hdec : (s.refCount + (W - 1)) % W = live := by
            have h0 : (0 : Nat) < W := by decide
            rw [hrc, show live + 1 + (W - 1) = live + W by omega,
                Nat.add_mod_right, Nat.mod_eq_of_lt hlive]
          cases live with
          | zero =>
              have hd0 : s.decrementRefCount = none := by
                unfold Memblockimpl.decrementRefCount
                dsimp only
                rw [hdec]
                rw [if_pos rfl]
              rw [runHandles_destroy_none hd0]
              have hnil : es = [] := by
                cases es with
                | nil => rfl
                | cons y ys =>
                    have hfalse : false = true := hok
                    exact Bool.noConfusion hfalse
              subst hnil
              rfl
          | succ k =>
              have hds : s.decrementRefCount = some { s with refCount := k + 1 } := by
                unfold Memblockimpl.decrementRefCount
                dsimp only
                rw [hdec]
                rw [if_neg (Nat.succ_ne_zero k)]
              rw [runHandles_destroy_some hds]
              rw [ih k { s with refCount := k + 1 } hok rfl (by omega)]
              rfl

/-- Claim C7: for every valid interleaving of `n` copy/rebind constructions
and `n + 1` destructions (the copies plus the original handle, every event
acting on a live handle, and — the architectural bound — never `2^64`
simultaneously live handles), the shared arena state's reference count reaches
zero and teardown runs exactly at the final destruction: the full run tears
the state down exactly once, and no proper prefix of the run tears it down at
all. -/
theorem refcount_teardown_exactly_once (n : Nat) (es : List HandleEvent) (d : Nat)
    (hv : validInterleaving n es) :
    runHandles es (Memblockimpl.create d) = 1 ∧
    ∀ k, k < es.length → runHandles (es.take k) (Memblockimpl.create d) = 0 := by
  obtain ⟨hc, hd, hok, hW⟩ := hv
  have hrc : (Memblockimpl.create d).refCount = 1 := rfl
  have hcount := finalLive_counts es 1 hok
  constructor
  · rw [runHandles_aux es 0 (Memblockimpl.create d) hok hrc (by omega)]
    simp only [Nat.zero_add]
    rw [if_pos (by omega)]
  · intro k hk
    have hok2 := prefixOk_take es k 1 hok
    have hbound : 0 + 1 + countCopies (es.take k) < W := by
      have := countCopies_take_le es k
      omega
    rw [runHandles_aux (es.take k) 0 (Memblockimpl.create d) hok2 hrc hbound]
    have h1 : es = es.take k ++ es.drop k := (List.take_append_drop k es).symm
    have h2 : es.drop k ≠ [] := by
      intro hcontra
      have h3 := List.length_drop k es
      rw [hcontra] at h3
      simp at h3
      omega
    obtain ⟨y, ys, hys⟩ := List.exists_cons_of_ne_nil h2
    have h3 : prefixOk 1 (es.take k ++ y :: ys) = true := by
      rw [← hys, ← h1]
      exact hok
    have h4 := prefixOk_pos_mid (es.take k) y ys 1 h3
    simp only [Nat.zero_add]
    rw [if_neg (by omega)]

theorem cur_mem_blocks (s : Memblockimpl) : s.cur ∈ s.blocks :=
  List.mem_append_right _ (List.mem_singleton_self _)

theorem Memblock.create_good {bsize : Nat} (h : bsize ≤ 2 ^ 63) :
    (Memblock.create bsize).good := by
  unfold Memblock.good Memblock.create
  refine ⟨Nat.zero_le _, ?_, rfl, roundSize_mod8 bsize⟩
  calc roundSize bsize ≤ roundSize (2 ^ 63) := roundSize_mono (by decide) h
    _ ≤ 2 ^ 63 := by decide

theorem newBlockSize_le {s : Memblockimpl} {n : Nat}
    (hd : s.defaultSize ≤ 2 ^ 62) (hn : n ≤ 2 ^ 62) :
    Memblockimpl.newBlockSize n s ≤ 2 ^ 63 := by
  unfold Memblockimpl.newBlockSize
  by_cases hc : s.defaultSize / 2 < n
  · rw [if_pos hc]
    have h1 : n * 2 < W := by
      have : (2 : Nat) ^ 62 * 2 < 2 ^ 64 := by norm_num
      have hWeq : W = 2 ^ 64 := rfl
      omega
    rw [Nat.mod_eq_of_lt h1]
    omega
  · rw [if_neg hc]
    omega

/-- Witness for C7: for `n = 1` and the interleaving copy, destroy, destroy,
the teardown count of the full run is 1 and of the proper prefix of length 2
is 0. -/
theorem refcount_teardown_exactly_once_witness :
    validInterleaving 1 [HandleEvent.copy, HandleEvent.destroy, HandleEvent.destroy] ∧
    runHandles [HandleEvent.copy, HandleEvent.destroy, HandleEvent.destroy]
      (Memblockimpl.create 256) = 1 ∧
    runHandles ([HandleEvent.copy, HandleEvent.destroy, HandleEvent.destroy].take 2)
      (Memblockimpl.create 256) = 0 :=
  ⟨by decide,
   (refcount_teardown_exactly_once 1 _ 256 (by decide)).1,
   (refcount_teardown_exactly_once 1 _ 256 (by decide)).2 2 (by decide)⟩

theorem alloc_good {s : Memblockimpl} {n : Nat} (hg : s.good) (hn : n ≤ 2 ^ 62) :
    (Memblockimpl.allocate n s).2.good := by
  obtain ⟨hb, hd⟩ := hg
  obtain ⟨hc1, hc2, hc3, hc4⟩ := hb s.cur (cur_mem_blocks s)
  have hr := roundSize_le_p62 hn
  have hr8 := roundSize_mod8 n
  have hWeq : W = 2 ^ 64 := rfl
  have hnum : (2 : Nat) ^ 62 + 2 ^ 63 < 2 ^ 64 := by norm_num
  rcases le_or_lt ((roundSize n + s.cur.index) % W) s.cur.bufferSize with hc | hc
  · have hmod : (roundSize n + s.cur.index) % W = roundSize n + s.cur.index :=
      Nat.mod_eq_of_lt (by omega)
    rw [Memblockimpl.allocate_eq_cur_success hc]
    rw [hmod] at hc
    have hmod2 : (s.cur.index + roundSize n) % W = s.cur.index + roundSize n :=
      Nat.mod_eq_of_lt (by omega)
    refine ⟨?_, hd⟩
    intro b hbmem
    rcases List.mem_append.mp hbmem with hmem | hmem
    · exact hb b (List.mem_append_left _ hmem)
    · rw [List.mem_singleton.mp hmem]
      refine ⟨?_, hc2, ?_, hc4⟩
      · show (s.cur.index + roundSize n) % W ≤ s.cur.bufferSize
        omega
      · show (s.cur.index + roundSize n) % W % 8 = 0
        rw [hmod2]
        omega
  · have hnb : Memblockimpl.newBlockSize n s ≤ 2 ^ 63 := newBlockSize_le hd hn
    have hnbcap : roundSize (Memblockimpl.newBlockSize n s) ≤ 2 ^ 63 := roundSize_le_p63 hnb
    rcases le_or_lt (roundSize n) (roundSize (Memblockimpl.newBlockSize n s)) with h2 | h2
    · rw [Memblockimpl.allocate_eq_grow_success hc h2]
      refine ⟨?_, hd⟩
      intro b hbmem
      rcases List.mem_append.mp hbmem with hmem | hmem
      · exact hb b hmem
      · rw [List.mem_singleton.mp hmem]
        exact ⟨h2, hnbcap, hr8, roundSize_mod8 _⟩
    · rw [Memblockimpl.allocate_eq_grow_fail hc h2]
      refine ⟨?_, hd⟩
      intro b hbmem
      rcases List.mem_append.mp hbmem with hmem | hmem
      · exact hb b hmem
      · rw [List.mem_singleton.mp hmem]
        exact Memblock.create_good hnb

theorem alloc_okAt_mono {s : Memblockimpl} {n : Nat} (hg : s.good) (hn : n ≤ 2 ^ 62)
    (r : Region) (hok : r.okAt s) : r.okAt (Memblockimpl.allocate n s).2 := by
  obtain ⟨hb, hd⟩ := hg
  obtain ⟨hc1, hc2, hc3, hc4⟩ := hb s.cur (cur_mem_blocks s)
  obtain ⟨h8, b, hget, hle⟩ := hok
  have hr := roundSize_le_p62 hn
  have hWeq : W = 2 ^ 64 := rfl
  have hnum : (2 : Nat) ^ 62 + 2 ^ 63 < 2 ^ 64 := by norm_num
  rcases le_or_lt ((roundSize n + s.cur.index) % W) s.cur.bufferSize with hc | hc
  · rw [Memblockimpl.allocate_eq_cur_success hc]
    rcases Nat.lt_trichotomy r.block s.front.length with hlt | heq | hgt
    · refine ⟨h8, b, ?_, hle⟩
      show (s.front ++ [_]).get? r.block = some b
      rw [List.get?_append hlt]
      rw [show Memblockimpl.blocks s = s.front ++ [s.cur] from rfl,
          List.get?_append hlt] at hget
      exact hget
    · have hcur : b = s.cur := by
        rw [heq, show Memblockimpl.blocks s = s.front ++ [s.cur] from rfl,
            List.get?_concat_length] at hget
        exact (Option.some.inj hget).symm
      refine ⟨h8, { s.cur with index := (s.cur.index + roundSize n) % W }, ?_, ?_⟩
      · show (s.front ++ [_]).get? r.block = _
        rw [heq]
        exact List.get?_concat_length _ _
      · have hmod : (roundSize n + s.cur.index) % W = roundSize n + s.cur.index :=
          Nat.mod_eq_of_lt (by omega)
        rw [hmod] at hc
        have hmod2 : (s.cur.index + roundSize n) % W = s.cur.index + roundSize n :=
          Nat.mod_eq_of_lt (by omega)
        show r.start + r.len ≤ (s.cur.index + roundSize n) % W
        rw [hcur] at hle
        omega
    · exfalso
      have hnone : (Memblockimpl.blocks s).get? r.block = none := by
        apply List.get?_eq_none.mpr
        show (s.front ++ [s.cur]).length ≤ r.block
        rw [List.length_append]
        simpa using hgt
      rw [hnone] at hget
      exact Option.noConfusion hget
  · have hlen : r.block < (s.front ++ [s.cur]).length := by
      by_contra hge
      rw [show Memblockimpl.blocks s = s.front ++ [s.cur] from rfl,
          List.get?_eq_none.mpr (Nat.le_of_not_lt hge)] at hget
      exact Option.noConfusion hget
    rcases le_or_lt (roundSize n) (roundSize (Memblockimpl.newBlockSize n s)) with h2 | h2
    · rw [Memblockimpl.allocate_eq_grow_success hc h2]
      refine ⟨h8, b, ?_, hle⟩
      show ((s.front ++ [s.cur]) ++ [_]).get? r.block = some b
      rw [List.get?_append hlen]
      exact hget
    · rw [Memblockimpl.allocate_eq_grow_fail hc h2]
      refine ⟨h8, b, ?_, hle⟩
      show ((s.front ++ [s.cur]) ++ [_]).get? r.block = some b
      rw [List.get?_append hlen]
      exact hget

theorem alloc_new_ok {s : Memblockimpl} {n : Nat} {p : Ptr} (hg : s.good) (hn : n ≤ 2 ^ 62)
    (hp : (Memblockimpl.allocate n s).1 = some p) :
    Region.okAt (Memblockimpl.allocate n s).2 ⟨p.block, p.offset, n⟩ := by
  obtain ⟨hb, hd⟩ := hg
  obtain ⟨hc1, hc2, hc3, hc4⟩ := hb s.cur (cur_mem_blocks s)
  have hr := roundSize_le_p62 hn
  have hWeq : W = 2 ^ 64 := rfl
  have hnum : (2 : Nat) ^ 62 + 2 ^ 63 < 2 ^ 64 := by norm_num
  have hnum2 : (2 : Nat) ^ 62 + 7 < 2 ^ 64 := by norm_num
  have hge : n ≤ roundSize n := le_roundSize (by omega)
  rcases le_or_lt ((roundSize n + s.cur.index) % W) s.cur.bufferSize with hc | hc
  · rw [Memblockimpl.allocate_eq_cur_success hc] at hp ⊢
    have hp2 : some (⟨s.front.length, s.cur.index⟩ : Ptr) = some p := hp
    rw [← Option.some.inj hp2]
    have hmod : (roundSize n + s.cur.index) % W = roundSize n + s.cur.index :=
      Nat.mod_eq_of_lt (by omega)
    rw [hmod] at hc
    have hmod2 : (s.cur.index + roundSize n) % W = s.cur.index + roundSize n :=
      Nat.mod_eq_of_lt (by omega)
    refine ⟨hc3, { s.cur with index := (s.cur.index + roundSize n) % W }, ?_, ?_⟩
    · exact List.get?_concat_length _ _
    · show s.cur.index + n ≤ (s.cur.index + roundSize n) % W
      omega
  · rcases le_or_lt (roundSize n) (roundSize (Memblockimpl.newBlockSize n s)) with h2 | h2
    · rw [Memblockimpl.allocate_eq_grow_success hc h2] at hp ⊢
      have hp2 : some (⟨s.front.length + 1, 0⟩ : Ptr) = some p := hp
      rw [← Option.some.inj hp2]
      have hL : (s.front ++ [s.cur]).length = s.front.length + 1 := by simp
      refine ⟨rfl, ⟨roundSize (Memblockimpl.newBlockSize n s), roundSize n,
        Memblockimpl.newBlockSize n s⟩, ?_, by show 0 + n ≤ roundSize n; omega⟩
      show ((s.front ++ [s.cur]) ++ [_]).get? (s.front.length + 1) = _
      rw [← hL]
      exact List.get?_concat_length _ _
    · rw [Memblockimpl.allocate_eq_grow_fail hc h2] at hp
      exact Option.noConfusion hp

theorem alloc_new_fresh {s : Memblockimpl} {n : Nat} {p : Ptr} (hg : s.good) (hn : n ≤ 2 ^ 62)
    (hp : (Memblockimpl.allocate n s).1 = some p) (rp : Region) (hok : rp.okAt s) :
    ¬ rp.overlaps ⟨p.block, p.offset, n⟩ := by
  obtain ⟨hb, hd⟩ := hg
  obtain ⟨h8, b, hget, hle⟩ := hok
  rcases le_or_lt ((roundSize n + s.cur.index) % W) s.cur.bufferSize with hc | hc
  · rw [Memblockimpl.allocate_eq_cur_success hc] at hp
    have hp2 : some (⟨s.front.length, s.cur.index⟩ : Ptr) = some p := hp
    rw [← Option.some.inj hp2]
    intro hov
    unfold Region.overlaps at hov
    obtain ⟨hbl, hov⟩ := hov
    simp only at hbl hov
    have hbcur : b = s.cur := by
      rw [hbl, show Memblockimpl.blocks s = s.front ++ [s.cur] from rfl,
          List.get?_concat_length] at hget
      exact (Option.some.inj hget).symm
    rw [hbcur] at hle
    omega
  · rcases le_or_lt (roundSize n) (roundSize (Memblockimpl.newBlockSize n s)) with h2 | h2
    · rw [Memblockimpl.allocate_eq_grow_success hc h2] at hp
      have hp2 : some (⟨s.front.length + 1, 0⟩ : Ptr) = some p := hp
      rw [← Option.some.inj hp2]
      intro hov
      unfold Region.overlaps at hov
      obtain ⟨hbl, -⟩ := hov
      simp only at hbl
      have hlen : rp.block < (s.front ++ [s.cur]).length := by
        by_contra hge2
        rw [show Memblockimpl.blocks s = s.front ++ [s.cur] from rfl,
            List.get?_eq_none.mpr (Nat.le_of_not_lt hge2)] at hget
        exact Option.noConfusion hget
      rw [List.length_append] at hlen
      simp only [List.length_singleton] at hlen
      omega
    · rw [Memblockimpl.allocate_eq_grow_fail hc h2] at hp
      exact Option.noConfusion hp

theorem arenaCreate_good {d : Nat} (hd : d ≤ 2 ^ 62) : (Memblockimpl.create d).good := by
  constructor
  · intro b hbmem
    have hbeq : b = Memblock.create (if d < 256 then 256 else d) := by
      rcases List.mem_append.mp hbmem with h | h
      · exact absurd h (List.not_mem_nil b)
      · exact List.mem_singleton.mp h
    rw [hbeq]
    apply Memblock.create_good
    by_cases h : d < 256
    · rw [if_pos h]
      decide
    · rw [if_neg h]
      have : (2 : Nat) ^ 62 ≤ 2 ^ 63 := by norm_num
      omega
  · show (if d < 256 then 256 else d) ≤ 2 ^ 62
    by_cases h : d < 256
    · rw [if_pos h]
      decide
    · rw [if_neg h]
      exact hd

theorem runAlloc_inv (ns : List Nat) :
    ∀ s : Memblockimpl, s.good → (∀ n ∈ ns, n ≤ 2 ^ 62) →
      (runAlloc ns s).2.good ∧
      (∀ r ∈ (runAlloc ns s).1, r.okAt (runAlloc ns s).2) ∧
      (∀ rp : Region, rp.okAt s → rp.okAt (runAlloc ns s).2) ∧
      (∀ r ∈ (runAlloc ns s).1, ∀ rp : Region, rp.okAt s → ¬ rp.overlaps r) ∧
      List.Pairwise (fun a b => ¬ a.overlaps b) (runAlloc ns s).1 := by
  induction ns with
  | nil =>
      intro s hg _
      exact ⟨hg, by simp [runAlloc], fun rp h => h, by simp [runAlloc], by simp [runAlloc]⟩
  | cons n ns ih =>
      intro s hg hbound
      have hn : n ≤ 2 ^ 62 := hbound n (List.mem_cons_self n ns)
      have hbs : ∀ m ∈ ns, m ≤ 2 ^ 62 := fun m hm => hbound m (List.mem_cons_of_mem n hm)
      have hre : runAlloc (n :: ns) s =
          (recordRegion n (Memblockimpl.allocate n s).1 ++
            (runAlloc ns (Memblockimpl.allocate n s).2).1,
           (runAlloc ns (Memblockimpl.allocate n s).2).2) := rfl
      rw [hre]
      have hg1 : (Memblockimpl.allocate n s).2.good := alloc_good hg hn
      obtain ⟨ihg, ihok, ihmono, ihfresh, ihpw⟩ := ih (Memblockimpl.allocate n s).2 hg1 hbs
      refine ⟨ihg, ?_, ?_, ?_, ?_⟩
      · intro r hrmem
        rcases List.mem_append.mp hrmem with hnew | hrest
        · cases hro : (Memblockimpl.allocate n s).1 with
          | none =>
              rw [hro] at hnew
              exact absurd hnew (List.not_mem_nil r)
          | some p =>
              rw [hro] at hnew
              rw [List.mem_singleton.mp hnew]
              exact ihmono _ (alloc_new_ok hg hn hro)
        · exact ihok r hrest
      · intro rp hrp
        exact ihmono rp (alloc_okAt_mono hg hn rp hrp)
      · intro r hrmem rp hrp
        rcases List.mem_append.mp hrmem with hnew | hrest
        · cases hro : (Memblockimpl.allocate n s).1 with
          | none =>
              rw [hro] at hnew
              exact absurd hnew (List.not_mem_nil r)
          | some p =>
              rw [hro] at hnew
              rw [List.mem_singleton.mp hnew]
              exact alloc_new_fresh hg hn hro rp hrp
        · exact ihfresh r hrest rp (alloc_okAt_mono hg hn rp hrp)
      · rw [List.pairwise_append]
        refine ⟨?_, ihpw, ?_⟩
        · cases hro : (Memblockimpl.allocate n s).1 with
          | none => exact List.Pairwise.nil
          | some p => exact List.pairwise_singleton _ _
        · intro a ha c hc
          cases hro : (Memblockimpl.allocate n s).1 with
          | none =>
              rw [hro] at ha
              exact absurd ha (List.not_mem_nil a)
          | some p =>
              rw [hro] at ha
              rw [List.mem_singleton.mp ha]
              exact ihfresh c hc _ (alloc_new_ok hg hn hro)

/-- Claim C6 (amended): for every sequence of `allocate(n)` calls with
`0 < n ≤ 2^62` on an arena constructed with default size `≤ 2^62` (the
no-`size_t`-overflow regime), the returned regions — each taken as the `n`
requested bytes from its returned start — are pairwise non-overlapping, every
returned start offset is a multiple of the 8-byte maximum-scalar-alignment
unit, and every region lies below both the bump cursor and the recorded
capacity of its block, so each region spans its requested `n` bytes of
exclusively owned block space.  (Without the size bound the claim is refuted
by `alloc_regions_overlap_ce`.) -/
theorem alloc_regions_disjoint_aligned (ns : List Nat) (d : Nat)
    (hd : d ≤ 2 ^ 62) (hns : ∀ n ∈ ns, 0 < n ∧ n ≤ 2 ^ 62) :
    List.Pairwise (fun a b => ¬ a.overlaps b) (runAlloc ns (Memblockimpl.create d)).1 ∧
    (∀ r ∈ (runAlloc ns (Memblockimpl.create d)).1,
      r.start % 8 = 0 ∧
      ∃ b, ((runAlloc ns (Memblockimpl.create d)).2.blocks).get? r.block = some b ∧
        r.start + r.len ≤ b.index ∧ r.start + r.len ≤ b.bufferSize) := by
  have hcg : (Memblockimpl.create d).good := arenaCreate_good hd
  obtain ⟨hg, hok, -, -, hpw⟩ :=
    runAlloc_inv ns (Memblockimpl.create d) hcg (fun n hn => (hns n hn).2)
  refine ⟨hpw, ?_⟩
  intro r hr
  obtain ⟨h8, b, hget, hle⟩ := hok r hr
  refine ⟨h8, b, hget, hle, ?_⟩
  have hbmem : b ∈ (runAlloc ns (Memblockimpl.create d)).2.blocks := List.get?_mem hget
  exact Nat.le_trans hle (hg.1 b hbmem).1

/-- Witness for C6: the spec's own end-to-end scenario, requests 42, 300, 10
on a fresh arena of default size 256: the returned regions are pairwise
disjoint. -/
theorem alloc_regions_disjoint_aligned_witness :
    (256 ≤ (2 : Nat) ^ 62 ∧ ∀ n ∈ [42, 300, 10], 0 < n ∧ n ≤ 2 ^ 62) ∧
    List.Pairwise (fun a b => ¬ a.overlaps b)
      (runAlloc [42, 300, 10] (Memblockimpl.create 256)).1 :=
  ⟨⟨by decide, by decide⟩,
   (alloc_regions_disjoint_aligned [42, 300, 10] 256 (by decide) (by decide)).1⟩

/-- Counterexample to C6 as stated: on a fresh arena of default size 256, the
all-positive request sequence 16, 2^64 - 8, 16 yields the regions
(block 0, offset 0, 16 bytes), (block 0, offset 16, 2^64 - 8 bytes) and
(block 0, offset 8, 16 bytes): the `size_t` capacity comparison wraps on the
huge request, the cursor moves backwards, and the first and third regions
overlap on offsets 8..15. -/
theorem alloc_regions_overlap_ce :
    0 < 16 ∧ 0 < 2 ^ 64 - 8 ∧
    (runAlloc [16, 2 ^ 64 - 8, 16] (Memblockimpl.create 256)).1 =
      [⟨0, 0, 16⟩, ⟨0, 16, 2 ^ 64 - 8⟩, ⟨0, 8, 16⟩] ∧
    Region.overlaps ⟨0, 0, 16⟩ ⟨0, 8, 16⟩ := by
  decide

end ArenaAlloc
